import Mathlib

/-!
Verification of the layer-linter contract checker (`layer_linter/contract.py`).

The Python source is shallowly embedded below: module names are `String`s,
the mutable `illegal_dependencies` attribute (which only exists after
`check_dependencies` has run) is an `Option (List (List String))`, and the
side-effecting check is a pure function from the contract's construction
state and a dependency graph to the recorded list of violation paths.

The `DependencyGraph` collaborator lives in `layer_linter.dependencies`,
which is outside the sources under check; it is modelled from the spec
(section 6): descendant lookup plus path search ignoring whitelisted edges.
A concrete instance backed by an explicit edge list, with a shortest-path
search, is provided for the end-to-end detection theorems.
-/

namespace LayerLinter

/-- An importer/imported module-name pair; whitelist entries are edges the
path search must ignore. -/
structure ImportPath where
  importer : String
  imported : String
deriving DecidableEq

/-- A named stratum of a layering stack (class `Layer` of `contract.py`). -/
structure Layer where
  name : String
deriving DecidableEq

/-- Modelled from the spec: the `DependencyGraph` external collaborator of
section 6 (module `layer_linter.dependencies`, not among the sources under
check).  `get_descendants` returns every strict descendant module of a
module; `find_path upstream downstream ignore_paths` returns one import
chain (endpoints inclusive) showing that `upstream` imports `downstream`
directly or transitively, ignoring whitelisted edges, or `none`. -/
structure DependencyGraph where
  get_descendants : String → List String
  find_path : String → String → List ImportPath → Option (List String)

/-- The `Contract` aggregate of `contract.py`.  The Python attribute
`illegal_dependencies` does not exist until `check_dependencies` assigns it;
that uninitialized state is `none`. -/
structure Contract where
  name : String
  packages : List String
  layers : List Layer
  whitelisted_paths : List ImportPath
  recursive : Bool
  illegal_dependencies : Option (List (List String))

/-- `Contract.__init__`: stores the construction arguments and leaves
`illegal_dependencies` unset.  (Python's `whitelisted_paths if
whitelisted_paths else []` is the identity on every actual list argument:
`None` and `[]` both become `[]`.) -/
def Contract.init (name : String) (packages : List String) (layers : List Layer)
    (whitelisted_paths : List ImportPath) (recursive : Bool) : Contract :=
  ⟨name, packages, layers, whitelisted_paths, recursive, none⟩

/-- `set(p).issubset(set(q))`: every module occurring in `p` occurs in `q`. -/
def pathSubset (p q : List String) : Bool :=
  p.all (fun m => decide (m ∈ q))

/-- The final value of the aggregator's `add_path` flag: starting from `b`,
each comparison against an already-recorded path may reassign it, so the
result is the verdict of the last comparison that fired. -/
def add_path_flag (path : List String) (l : List (List String)) (b : Bool) : Bool :=
  l.foldl
    (fun b2 existing_path =>
      if pathSubset path existing_path then true
      else if pathSubset existing_path path then false
      else b2)
    b

/-- `Contract._update_illegal_dependencies` (the illegal-path aggregator).
The fold mirrors the Python loop over a copy of the current list:
`scan.1` is `paths_to_remove` and `scan.2` is `add_path` (initially `True`,
reassigned by whichever comparison fires last).  Afterwards the recorded
list is filtered by membership in `paths_to_remove` and, when `add_path`
survived as `True`, the new path is appended. -/
def _update_illegal_dependencies (illegal_dependencies : List (List String))
    (path : List String) : List (List String) :=
  let scan :=
    illegal_dependencies.foldl
      (fun acc existing_path =>
        if pathSubset path existing_path then (acc.1 ++ [existing_path], true)
        else if pathSubset existing_path path then (acc.1, false)
        else acc)
      (([] : List (List String)), true)
  let remaining := illegal_dependencies.filter (fun i => !(decide (i ∈ scan.1)))
  if scan.2 then remaining ++ [path] else remaining

/-- `Contract._get_modules_in_layer`: the layer's fully-qualified module
followed by every descendant module the graph reports for it. -/
def _get_modules_in_layer (layer : Layer) (package : String)
    (dependencies : DependencyGraph) : List String :=
  let layer_module := package ++ "." ++ layer.name
  layer_module :: dependencies.get_descendants layer_module

/-- `Contract._get_layers_downstream_of`: the layers strictly before
`layer`, from the one immediately below it down to the most fundamental. -/
def _get_layers_downstream_of (c : Contract) (layer : Layer) : List Layer :=
  (c.layers.take (c.layers.indexOf layer)).reverse

/-- `Contract._get_modules_in_downstream_layers`: the root module name of
each downstream layer only (the descendant lookup is commented out in the
source). -/
def _get_modules_in_downstream_layers (c : Contract) (layer : Layer) (package : String)
    (dependencies : DependencyGraph) : List String :=
  (_get_layers_downstream_of c layer).map
    (fun downstream_layer => package ++ "." ++ downstream_layer.name)

/-- `Contract._path_is_via_another_layer`: does any interior node of the
path (both endpoints dropped) equal the root module of one of this
contract's other declared layers? -/
def _path_is_via_another_layer (c : Contract) (path : List String)
    (current_layer : Layer) (package : String) : Bool :=
  let other_layers := c.layers.erase current_layer
  let layer_modules := other_layers.map (fun layer => package ++ "." ++ layer.name)
  let modules_via := (path.drop 1).dropLast
  modules_via.any (fun path_module => decide (path_module ∈ layer_modules))

/-- One iteration of the inner pair loop of
`Contract._check_layer_does_not_import_downstream`: query the graph for a
chain showing the downstream module imports the upstream one and, when a
non-empty path comes back that does not route via another declared layer,
record it. -/
def check_pair (c : Contract) (dependencies : DependencyGraph) (package : String)
    (layer : Layer) (illegal : List (List String))
    (upstream_module downstream_module : String) : List (List String) :=
  match dependencies.find_path downstream_module upstream_module c.whitelisted_paths with
  | some path =>
      if !path.isEmpty && !(_path_is_via_another_layer c path layer package) then
        _update_illegal_dependencies illegal path
      else illegal
  | none => illegal

/-- `Contract._check_layer_does_not_import_downstream`: run `check_pair`
over every (this-layer module, downstream module) pair. -/
def _check_layer_does_not_import_downstream (c : Contract) (layer : Layer)
    (package : String) (dependencies : DependencyGraph)
    (illegal : List (List String)) : List (List String) :=
  let modules_in_this_layer := _get_modules_in_layer layer package dependencies
  let modules_in_downstream_layers :=
    _get_modules_in_downstream_layers c layer package dependencies
  modules_in_this_layer.foldl
    (fun acc upstream_module =>
      modules_in_downstream_layers.foldl
        (fun acc2 downstream_module =>
          check_pair c dependencies package layer acc2 upstream_module downstream_module)
        acc)
    illegal

/-- The list `Contract.check_dependencies` computes: starting from the
empty list, every package is checked, with the layers visited from the
highest index down to the lowest. -/
def illegal_after (c : Contract) (dependencies : DependencyGraph) :
    List (List String) :=
  c.packages.foldl
    (fun acc package =>
      c.layers.reverse.foldl
        (fun acc2 layer =>
          _check_layer_does_not_import_downstream c layer package dependencies acc2)
        acc)
    []

/-- `Contract.check_dependencies`: reset `illegal_dependencies` and
recompute it from the graph; every other field is untouched. -/
def check_dependencies (c : Contract) (dependencies : DependencyGraph) : Contract :=
  { c with illegal_dependencies := some (illegal_after c dependencies) }

/-- The `Contract.is_kept` property: raises (here: returns `.error`) when
`check_dependencies` has not run, otherwise reports whether the recorded
list is empty. -/
def is_kept (c : Contract) : Except String Bool :=
  match c.illegal_dependencies with
  | some illegal_dependencies => .ok (illegal_dependencies.length == 0)
  | none =>
      .error "Cannot check whether contract is kept until check_dependencies is called."

/-- Python `whitelist_data.split(' <- ')` over the character list: split at
every (left to right, non-overlapping) occurrence of the separator. -/
def split_on_sep : List Char → List Char → List (List Char)
  | acc, ' ' :: '<' :: '-' :: ' ' :: rest => acc :: split_on_sep [] rest
  | acc, c :: rest => split_on_sep (acc ++ [c]) rest
  | acc, [] => [acc]

/-- The pieces of a whitelist entry around each `" <- "` separator. -/
def split_whitelist_data (whitelist_data : String) : List String :=
  (split_on_sep [] whitelist_data.toList).map String.mk

/-- One iteration of the whitelist loop of `contract_from_yaml`:
`importer, imported = whitelist_data.split(' <- ')` raises `ValueError`
unless the split yields exactly two pieces. -/
def parse_whitelist_entry (whitelist_data : String) : Except String ImportPath :=
  match split_whitelist_data whitelist_data with
  | [importer, imported] => .ok ⟨importer, imported⟩
  | _ => .error "Whitelisted paths must be in the format \"importer.module <- imported.module\"."

/-- The whitelist loop of `contract_from_yaml`: the first malformed entry
aborts the construction with its validation error. -/
def parse_whitelisted_paths : List String → Except String (List ImportPath)
  | [] => .ok []
  | whitelist_data :: rest =>
    match parse_whitelist_entry whitelist_data with
    | .error e => .error e
    | .ok ip =>
      match parse_whitelisted_paths rest with
      | .error e => .error e
      | .ok ips => .ok (ip :: ips)

/-- The configuration mapping one contract name is loaded from.  The Python
dict access `data['layers']` / `data['packages']` and
`data.get('whitelisted_paths', [])` (missing key defaulting to the empty
list) are modelled as record fields. -/
structure ContractData where
  layers : List String
  whitelisted_paths : List String
  packages : List String

/-- `contract_from_yaml`: wrap every layer name, parse every whitelist
entry (propagating the first validation error), and only then construct
the `Contract` (with `recursive` left at its default `False`). -/
def contract_from_yaml (key : String) (data : ContractData) : Except String Contract :=
  let layers := data.layers.map (fun layer_data => Layer.mk layer_data)
  match parse_whitelisted_paths data.whitelisted_paths with
  | .error e => .error e
  | .ok whitelisted_paths =>
    .ok (Contract.mk key data.packages layers whitelisted_paths false none)

/-- Modelled from the spec: a concrete import graph for the
`DependencyGraph` collaborator — a module universe plus directed
importer-to-imported edges. -/
structure ConcreteGraph where
  modules : List String
  imports : List (String × String)

/-- The import edges that survive the whitelist filter. -/
def allowedEdges (g : ConcreteGraph) (ignore_paths : List ImportPath) :
    List (String × String) :=
  g.imports.filter (fun e => !(decide (ImportPath.mk e.1 e.2 ∈ ignore_paths)))

/-- Extend every reversed walk by one allowed edge leaving its current
endpoint (walks are stored reversed: the head is the far end). -/
def stepWalks (edges : List (String × String)) (walks : List (List String)) :
    List (List String) :=
  walks.flatMap (fun w =>
    match w with
    | [] => []
    | c :: _ => (edges.filter (fun e => decide (e.1 = c))).map (fun e => e.2 :: w))

/-- All reversed walks out of `u` along allowed edges using exactly `n`
edges. -/
def walksRevFrom (edges : List (String × String)) (u : String) :
    Nat → List (List String)
  | 0 => [[u]]
  | n + 1 => stepWalks edges (walksRevFrom edges u n)

/-- Modelled from the spec: `find_path` of section 6 realised as a
shortest-path search — try 0, 1, 2, … edges (a minimal walk repeats no
module, so `edges.length` edges suffice) and return the first chain from
`upstream` to `downstream`, endpoints inclusive, avoiding whitelisted
edges. -/
def concrete_find_path (g : ConcreteGraph) (upstream downstream : String)
    (ignore_paths : List ImportPath) : Option (List String) :=
  let edges := allowedEdges g ignore_paths
  ((List.range (edges.length + 1)).findSome? (fun n =>
      (walksRevFrom edges upstream n).find?
        (fun w => decide (w.head? = some downstream)))).map
    List.reverse

/-- Modelled from the spec: a strict descendant is a module whose
fully-qualified name extends the ancestor's name by at least one dotted
component. -/
def is_descendant_of (ancestor m : String) : Bool :=
  (ancestor ++ ".").toList.isPrefixOf m.toList

/-- Package a concrete import graph as the `DependencyGraph` collaborator
the checker consumes. -/
def ConcreteGraph.toGraph (g : ConcreteGraph) : DependencyGraph :=
  ⟨fun module => g.modules.filter (fun m => is_descendant_of module m),
   fun upstream downstream ignore_paths =>
      concrete_find_path g upstream downstream ignore_paths⟩

/-- An import chain in an edge list: nonempty, from `u` to `v`, every
consecutive pair an edge. -/
def IsWalk (edges : List (String × String)) (p : List String) (u v : String) : Prop :=
  p.head? = some u ∧ p.getLast? = some v ∧ List.Chain' (fun a b => (a, b) ∈ edges) p

/-- No recorded path's node-set strictly contains another's: whenever one
recorded path's modules all occur in another's, the converse holds too. -/
def PathsIncomparable (l : List (List String)) : Prop :=
  ∀ p ∈ l, ∀ q ∈ l, pathSubset p q = true → pathSubset q p = true

instance (l : List (List String)) : Decidable (PathsIncomparable l) :=
  inferInstanceAs
    (Decidable (∀ p ∈ l, ∀ q ∈ l, pathSubset p q = true → pathSubset q p = true))

/-- Every recorded path is a find-path result of some queried pair: its
first element a queried downstream module and its last element a queried
module of the layer under check. -/
def GoodPath (c : Contract) (dependencies : DependencyGraph) (r : List String) : Prop :=
  ∃ package ∈ c.packages, ∃ layer ∈ c.layers,
    ∃ u ∈ _get_modules_in_layer layer package dependencies,
      ∃ d ∈ _get_modules_in_downstream_layers c layer package dependencies,
        r.head? = some d ∧ r.getLast? = some u

/-! ### The illegal-path aggregator -/

lemma pathSubset_iff {p q : List String} : pathSubset p q = true ↔ ∀ m ∈ p, m ∈ q := by
  simp [pathSubset]

lemma pathSubset_refl (p : List String) : pathSubset p p = true :=
  pathSubset_iff.mpr (fun _ hm => hm)

lemma pathSubset_trans {p q r : List String} (h1 : pathSubset p q = true)
    (h2 : pathSubset q r = true) : pathSubset p r = true :=
  pathSubset_iff.mpr (fun m hm => pathSubset_iff.mp h2 m (pathSubset_iff.mp h1 m hm))

lemma update_scan_fst (path : List String) (l : List (List String))
    (acc : List (List String)) (b : Bool) :
    (l.foldl
      (fun acc existing_path =>
        if pathSubset path existing_path then (acc.1 ++ [existing_path], true)
        else if pathSubset existing_path path then (acc.1, false)
        else acc)
      (acc, b)).1 = acc ++ l.filter (fun e => pathSubset path e) := by
  induction l generalizing acc b with
  | nil => simp
  | cons e t ih =>
    by_cases h1 : pathSubset path e
    · simp [List.foldl_cons, List.filter_cons, h1, ih]
    · by_cases h2 : pathSubset e path
      · simp [List.foldl_cons, List.filter_cons, h1, h2, ih]
      · simp [List.foldl_cons, List.filter_cons, h1, h2, ih]

lemma update_scan_snd (path : List String) (l : List (List String))
    (acc : List (List String)) (b : Bool) :
    (l.foldl
      (fun acc existing_path =>
        if pathSubset path existing_path then (acc.1 ++ [existing_path], true)
        else if pathSubset existing_path path then (acc.1, false)
        else acc)
      (acc, b)).2 = add_path_flag path l b := by
  induction l generalizing acc b with
  | nil => simp [add_path_flag]
  | cons e t ih =>
    by_cases h1 : pathSubset path e
    · simp [add_path_flag, List.foldl_cons, h1, ih, add_path_flag]
    · by_cases h2 : pathSubset e path
      · simp [add_path_flag, List.foldl_cons, h1, h2, ih]
      · simp [add_path_flag, List.foldl_cons, h1, h2, ih]

lemma filter_not_mem_filter (l : List (List String)) (p : List String → Bool) :
    l.filter (fun i => !(decide (i ∈ l.filter p))) = l.filter (fun i => !(p i)) := by
  apply List.filter_congr
  intro i hi
  by_cases hp : p i
  · simp [List.mem_filter, hi, hp]
  · simp [List.mem_filter, hp]

lemma add_path_flag_cons (path e : List String) (t : List (List String)) (b : Bool) :
    add_path_flag path (e :: t) b =
      add_path_flag path t
        (if pathSubset path e then true else if pathSubset e path then false else b) := rfl

/-- The aggregator, rewritten: remove every recorded path whose node-set
contains the new path's, and append the new path when the `add_path` flag
ends up `true`. -/
lemma update_eq (l : List (List String)) (path : List String) :
    _update_illegal_dependencies l path =
      if add_path_flag path l true then
        l.filter (fun e => !(pathSubset path e)) ++ [path]
      else l.filter (fun e => !(pathSubset path e)) := by
  simp only [_update_illegal_dependencies]
  simp only [update_scan_snd, update_scan_fst, List.nil_append]
  rw [filter_not_mem_filter]

lemma add_path_flag_true (path : List String) (l : List (List String))
    (h : ∀ e ∈ l, pathSubset path e = true ∨ pathSubset e path = false) : ∀ b,
    add_path_flag path l b = b ∨ add_path_flag path l b = true := by
  induction l with
  | nil => exact fun b => Or.inl rfl
  | cons e t ih =>
    intro b
    have he := h e (List.mem_cons_self e t)
    have iht := ih (fun x hx => h x (List.mem_cons_of_mem e hx))
    rw [add_path_flag_cons]
    by_cases h1 : pathSubset path e
    · rw [if_pos h1]
      rcases iht true with h' | h' <;> exact Or.inr h'
    · have h2 : pathSubset e path = false := by
        rcases he with he | he
        · exact absurd he h1
        · exact he
      rw [if_neg h1, if_neg (by simp [h2])]
      exact iht b

lemma add_path_flag_no_superset (path : List String) (l : List (List String))
    (h : ∀ e ∈ l, pathSubset path e = false) : ∀ b,
    add_path_flag path l b = (b && !(l.any (fun e => pathSubset e path))) := by
  induction l with
  | nil => intro b; simp [add_path_flag]
  | cons e t ih =>
    intro b
    have h1 : pathSubset path e = false := h e (List.mem_cons_self e t)
    have ht : ∀ x ∈ t, pathSubset path x = false :=
      fun x hx => h x (List.mem_cons_of_mem e hx)
    rw [add_path_flag_cons, if_neg (by simp [h1])]
    by_cases h2 : pathSubset e path
    · rw [if_pos h2, ih ht false]
      simp [h2]
    · rw [if_neg h2, ih ht b]
      simp [h2]

lemma add_path_flag_false_witness (path : List String) (l : List (List String)) :
    ∀ b, add_path_flag path l b = false →
    b = false ∨ ∃ e ∈ l, pathSubset e path = true ∧ pathSubset path e = false := by
  induction l with
  | nil => exact fun b h => Or.inl (by simpa [add_path_flag] using h)
  | cons e t ih =>
    intro b h
    rw [add_path_flag_cons] at h
    by_cases h1 : pathSubset path e
    · rw [if_pos h1] at h
      rcases ih true h with hb | ⟨x, hx, hx1, hx2⟩
      · exact absurd hb (by simp)
      · exact Or.inr ⟨x, List.mem_cons_of_mem e hx, hx1, hx2⟩
    · by_cases h2 : pathSubset e path
      · exact Or.inr ⟨e, List.mem_cons_self e t, h2, by simp [h1]⟩
      · rw [if_neg h1, if_neg h2] at h
        rcases ih b h with hb | ⟨x, hx, hx1, hx2⟩
        · exact Or.inl hb
        · exact Or.inr ⟨x, List.mem_cons_of_mem e hx, hx1, hx2⟩

/-- The aggregator never empties a nonempty list and always leaves a
nonempty list behind once something was recorded: either the new path is
appended, or the recorded strict subset that suppressed it survives. -/
lemma update_ne_nil (l : List (List String)) (path : List String) :
    _update_illegal_dependencies l path ≠ [] := by
  rw [update_eq]
  by_cases hflag : add_path_flag path l true = true
  · simp [hflag]
  · have hflag' : add_path_flag path l true = false := by
      cases h' : add_path_flag path l true
      · rfl
      · exact absurd h' hflag
    rcases add_path_flag_false_witness path l true hflag' with hb | ⟨e, he, _, he2⟩
    · simp at hb
    · have hmem : e ∈ l.filter (fun e => !(pathSubset path e)) :=
        List.mem_filter.mpr ⟨he, by simp [he2]⟩
      rw [if_neg hflag]
      exact List.ne_nil_of_mem hmem

/-- Characterisation of a `record` step on a list satisfying the
subset-incomparability invariant: every recorded path whose node-set
contains (or equals) the new path's is removed, and the new path is
appended unless some recorded path's node-set is strictly contained in
the new path's. -/
lemma update_characterization (l : List (List String)) (path : List String)
    (hInv : PathsIncomparable l) :
    _update_illegal_dependencies l path =
      l.filter (fun e => !(pathSubset path e)) ++
        (if l.any (fun e => pathSubset e path && !(pathSubset path e)) then []
         else [path]) := by
  rw [update_eq]
  by_cases hsup : ∃ e ∈ l, pathSubset path e = true
  · rcases hsup with ⟨e0, he0, he0sup⟩
    have hnostrict : l.any (fun e => pathSubset e path && !(pathSubset path e)) = false := by
      by_contra hc
      rcases List.any_eq_true.mp (Bool.of_not_eq_false hc) with ⟨e1, he1, hb⟩
      have hb1 : pathSubset e1 path = true := by
        cases hb' : pathSubset e1 path <;> simp [hb'] at hb ⊢
      have hb2 : pathSubset path e1 = false := by
        cases hb' : pathSubset path e1 <;> simp [hb', hb1] at hb ⊢
      have : pathSubset e1 e0 = true := pathSubset_trans hb1 he0sup
      have : pathSubset e0 e1 = true := hInv e1 he1 e0 he0 this
      exact absurd (pathSubset_trans he0sup this) (by simp [hb2])
    have hflag : add_path_flag path l true = true := by
      have hcond : ∀ e ∈ l, pathSubset path e = true ∨ pathSubset e path = false := by
        intro e he
        by_cases h1 : pathSubset path e
        · exact Or.inl h1
        · by_cases h2 : pathSubset e path
          · exfalso
            have : pathSubset e e0 = true := pathSubset_trans h2 he0sup
            have : pathSubset e0 e = true := hInv e he e0 he0 this
            exact h1 (pathSubset_trans he0sup this)
          · exact Or.inr (by simpa using h2)
      rcases add_path_flag_true path l hcond true with h' | h'
      · exact h'
      · exact h'
    rw [hflag, hnostrict]
    simp
  · push_neg at hsup
    have hnosup : ∀ e ∈ l, pathSubset path e = false := by
      intro e he
      cases h' : pathSubset path e
      · rfl
      · exact absurd h' (hsup e he)
    rw [add_path_flag_no_superset path l hnosup true]
    by_cases hstrict : l.any (fun e => pathSubset e path)
    · have : l.any (fun e => pathSubset e path && !(pathSubset path e)) = true := by
        rcases List.any_eq_true.mp hstrict with ⟨e, he, hb⟩
        exact List.any_eq_true.mpr ⟨e, he, by simp [hb, hnosup e he]⟩
      simp [this, hstrict]
    · have hs : l.any (fun e => pathSubset e path) = false := by
        cases h' : l.any (fun e => pathSubset e path)
        · rfl
        · exact absurd h' hstrict
      have : l.any (fun e => pathSubset e path && !(pathSubset path e)) = false := by
        cases h' : l.any (fun e => pathSubset e path && !(pathSubset path e))
        · rfl
        · rcases List.any_eq_true.mp h' with ⟨e, he, hb⟩
          have hep : pathSubset e path = true := by
            cases hb' : pathSubset e path <;> simp [hb'] at hb ⊢
          have hany : l.any (fun e => pathSubset e path) = true :=
            List.any_eq_true.mpr ⟨e, he, hep⟩
          rw [hs] at hany
          exact absurd hany (by simp)
      rw [this]
      simp [hs]

lemma empty_incomparable : PathsIncomparable [] := by
  intro p hp
  simp at hp

lemma update_preserves_incomparable (l : List (List String)) (path : List String)
    (hInv : PathsIncomparable l) :
    PathsIncomparable (_update_illegal_dependencies l path) := by
  rw [update_characterization l path hInv]
  by_cases hc : l.any (fun e => pathSubset e path && !(pathSubset path e)) = true
  · rw [if_pos hc]
    intro p hp q hq hpq
    simp only [List.append_nil] at hp hq
    exact hInv p (List.mem_of_mem_filter hp) q (List.mem_of_mem_filter hq) hpq
  · rw [if_neg hc]
    intro p hp q hq hpq
    rcases List.mem_append.mp hp with hp | hp
    · rcases List.mem_append.mp hq with hq | hq
      · exact hInv p (List.mem_of_mem_filter hp) q (List.mem_of_mem_filter hq) hpq
      · have hq' : q = path := by simpa using hq
        subst hq'
        have hpl : p ∈ l := List.mem_of_mem_filter hp
        by_cases hps : pathSubset q p = true
        · exact hps
        · exfalso
          apply hc
          exact List.any_eq_true.mpr ⟨p, hpl, by simp [hpq, hps]⟩
    · have hp' : p = path := by simpa using hp
      subst hp'
      rcases List.mem_append.mp hq with hq | hq
      · have := List.mem_filter.mp hq
        exact absurd hpq (by simpa using this.2)
      · have hq' : q = p := by simpa using hq
        subst hq'
        exact hpq

lemma foldl_preserves {α β : Type} (P : β → Prop) (f : β → α → β) :
    ∀ (l : List α), (∀ a x, x ∈ l → P a → P (f a x)) → ∀ a, P a → P (l.foldl f a) := by
  intro l
  induction l with
  | nil =>
    intro _ a ha
    simpa using ha
  | cons x t ih =>
    intro h a ha
    simp only [List.foldl_cons]
    exact ih (fun a2 y hy => h a2 y (List.mem_cons_of_mem x hy)) _
      (h a x (List.mem_cons_self x t) ha)

lemma foldl_establishes {α β : Type} (P : β → Prop) (f : β → α → β) (x : α)
    (hpres : ∀ a y, P a → P (f a y)) (hx : ∀ a, P (f a x)) :
    ∀ (l : List α) (a : β), x ∈ l → P (l.foldl f a) := by
  intro l
  induction l with
  | nil =>
    intro a hx'
    simp at hx'
  | cons y t ih =>
    intro a hmem
    simp only [List.foldl_cons]
    rcases List.mem_cons.mp hmem with rfl | hmem
    · exact foldl_preserves P f t (fun a2 z _ => hpres a2 z) _ (hx a)
    · exact ih _ hmem

lemma check_pair_preserves_incomparable (c : Contract) (dependencies : DependencyGraph)
    (package : String) (layer : Layer) (illegal : List (List String))
    (upstream_module downstream_module : String) (h : PathsIncomparable illegal) :
    PathsIncomparable
      (check_pair c dependencies package layer illegal upstream_module downstream_module) := by
  cases hfp : dependencies.find_path downstream_module upstream_module c.whitelisted_paths with
  | none => simpa [check_pair, hfp] using h
  | some path =>
    simp only [check_pair, hfp]
    by_cases hcond :
        (!path.isEmpty && !(_path_is_via_another_layer c path layer package)) = true
    · rw [if_pos hcond]
      exact update_preserves_incomparable _ _ h
    · rw [if_neg hcond]
      exact h

lemma check_layer_preserves_incomparable (c : Contract) (layer : Layer) (package : String)
    (dependencies : DependencyGraph) (illegal : List (List String))
    (h : PathsIncomparable illegal) :
    PathsIncomparable
      (_check_layer_does_not_import_downstream c layer package dependencies illegal) := by
  unfold _check_layer_does_not_import_downstream
  apply foldl_preserves PathsIncomparable _ _ _ illegal h
  intro acc u _ hacc
  apply foldl_preserves PathsIncomparable _ _ _ acc hacc
  intro acc2 d _ hacc2
  exact check_pair_preserves_incomparable c dependencies package layer acc2 u d hacc2

lemma illegal_after_incomparable (c : Contract) (dependencies : DependencyGraph) :
    PathsIncomparable (illegal_after c dependencies) := by
  unfold illegal_after
  apply foldl_preserves PathsIncomparable _ _ _ [] empty_incomparable
  intro acc package _ hacc
  apply foldl_preserves PathsIncomparable _ _ _ acc hacc
  intro acc2 layer _ hacc2
  exact check_layer_preserves_incomparable c layer package dependencies acc2 hacc2

/-- Claim C3, counterexample.  The claim asserts, for every state of the
recorded list, that the new path is not added whenever some already-recorded
path's node-set is a subset of the new path's.  The code's `add_path` flag
keeps only the verdict of the last comparison that fired, so on the state
`[[a], [a, b, c]]` the new path `[a, b]` is appended even though the
recorded `[a]` has a subset node-set; and on `[[a, b]]` the set-equal new
path `[b, a]` is appended even though a recorded path's node-set is
(non-strictly) a subset of the new one's. -/
theorem claim_C3_counterexample :
    (pathSubset ["a"] ["a", "b"] = true ∧
      _update_illegal_dependencies [["a"], ["a", "b", "c"]] ["a", "b"] =
        [["a"], ["a", "b"]]) ∧
    (pathSubset ["a", "b"] ["b", "a"] = true ∧
      _update_illegal_dependencies [["a", "b"]] ["b", "a"] = [["b", "a"]]) := by
  decide

/-- Claim C3, amended: on every state of the recorded-violations list whose
entries are pairwise subset-incomparable (the invariant every reachable
state satisfies, see C4), a record operation removes every recorded path
whose node-set is a superset of or equal to the new path's node-set, does
not add the new path when some recorded path's node-set is a strict subset
of the new path's, and otherwise appends the new path. -/
theorem claim_C3_amended (l : List (List String)) (path : List String)
    (hInv : PathsIncomparable l) :
    _update_illegal_dependencies l path =
      l.filter (fun e => !(pathSubset path e)) ++
        (if l.any (fun e => pathSubset e path && !(pathSubset path e)) then []
         else [path]) :=
  update_characterization l path hInv

theorem claim_C3_witness :
    PathsIncomparable [["a", "b", "x"], ["c"]] ∧
    _update_illegal_dependencies [["a", "b", "x"], ["c"]] ["a", "b"] =
      [["c"], ["a", "b"]] := by
  refine ⟨by decide, ?_⟩
  rw [claim_C3_amended [["a", "b", "x"], ["c"]] ["a", "b"] (by decide)]
  decide

/-- Claim C4: starting from the empty list set by `check_dependencies`,
after every sequence of record operations — and in particular after
`check_dependencies` completes, for every graph and contract — the
`illegal_dependencies` list contains no path whose node-set is a strict
subset of another recorded path's node-set. -/
theorem claim_C4 :
    (∀ recorded : List (List String),
        PathsIncomparable (recorded.foldl _update_illegal_dependencies [])) ∧
    (∀ (c : Contract) (dependencies : DependencyGraph),
        PathsIncomparable (illegal_after c dependencies)) := by
  constructor
  · intro recorded
    exact foldl_preserves PathsIncomparable _update_illegal_dependencies recorded
      (fun a x _ ha => update_preserves_incomparable a x ha) [] empty_incomparable
  · intro c dependencies
    exact illegal_after_incomparable c dependencies

/-- Claim C10: on any recorded-violations list the aggregator maintains
(pairwise subset-incomparable, per C4), when the new path's node-set
exactly equals an already-recorded path's node-set, the removal branch
wins: the recorded entry is removed and the new path sequence is appended
in its place, even when the two sequences differ as ordered lists. -/
theorem claim_C10 (l : List (List String)) (path existing : List String)
    (hInv : PathsIncomparable l) (hmem : existing ∈ l)
    (hsub : pathSubset existing path = true) (hsup : pathSubset path existing = true) :
    _update_illegal_dependencies l path =
      l.filter (fun e => !(pathSubset path e)) ++ [path] ∧
    (existing ≠ path → existing ∉ _update_illegal_dependencies l path) := by
  have hnostrict : l.any (fun e => pathSubset e path && !(pathSubset path e)) = false := by
    cases hc : l.any (fun e => pathSubset e path && !(pathSubset path e))
    · rfl
    · exfalso
      rcases List.any_eq_true.mp hc with ⟨e1, he1, hb⟩
      have hb1 : pathSubset e1 path = true := by
        cases hb' : pathSubset e1 path <;> simp [hb'] at hb ⊢
      have hb2 : pathSubset path e1 = false := by
        cases hb' : pathSubset path e1 <;> simp [hb', hb1] at hb ⊢
      have h1 : pathSubset e1 existing = true := pathSubset_trans hb1 hsup
      have h2 : pathSubset existing e1 = true := hInv e1 he1 existing hmem h1
      have : pathSubset path e1 = true := pathSubset_trans hsup h2
      simp [this] at hb2
  have heq : _update_illegal_dependencies l path =
      l.filter (fun e => !(pathSubset path e)) ++ [path] := by
    rw [update_characterization l path hInv, hnostrict]
    simp
  constructor
  · exact heq
  · intro hne hcontra
    rw [heq] at hcontra
    rcases List.mem_append.mp hcontra with h | h
    · have := List.mem_filter.mp h
      simp [hsup] at this
    · simp at h
      exact hne h

theorem claim_C10_witness :
    _update_illegal_dependencies [["a", "b"]] ["b", "a"] = [["b", "a"]] ∧
    ["a", "b"] ∉ _update_illegal_dependencies [["a", "b"]] ["b", "a"] := by
  have h := claim_C10 [["a", "b"]] ["b", "a"] ["a", "b"] (by decide) (by decide)
    (by decide) (by decide)
  refine ⟨?_, h.2 (by decide)⟩
  rw [h.1]
  decide


/-! ### The violation detector -/

lemma indexOf_append_not_mem (pre : List Layer) (layer : Layer) (post : List Layer)
    (h : layer ∉ pre) : (pre ++ layer :: post).indexOf layer = pre.length := by
  induction pre with
  | nil => simp [List.indexOf_cons]
  | cons x t ih =>
    have hx : x ≠ layer := fun he => h (he ▸ List.mem_cons_self x t)
    have ht : layer ∉ t := fun hm => h (List.mem_cons_of_mem x hm)
    simp [List.indexOf_cons, hx, ih ht]

/-- Claim C5: for each package and each layer, the this-layer modules
queried are the layer's fully-qualified module followed by every descendant
module the graph reports for it, and the downstream modules queried are
exactly the root module names of the strictly-lower layers, from the layer
immediately below the current one down to the most fundamental. -/
theorem claim_C5 (c : Contract) (package : String) (dependencies : DependencyGraph)
    (pre post : List Layer) (layer : Layer)
    (hlayers : c.layers = pre ++ layer :: post) (hpre : layer ∉ pre) :
    _get_modules_in_layer layer package dependencies =
      (package ++ "." ++ layer.name) ::
        dependencies.get_descendants (package ++ "." ++ layer.name) ∧
    _get_modules_in_downstream_layers c layer package dependencies =
      pre.reverse.map (fun downstream_layer => package ++ "." ++ downstream_layer.name) := by
  constructor
  · rfl
  · unfold _get_modules_in_downstream_layers _get_layers_downstream_of
    rw [hlayers, indexOf_append_not_mem pre layer post hpre]
    rw [List.take_left]

theorem claim_C5_witness :
    ((Contract.init "c" ["pkg"]
        [Layer.mk "low", Layer.mk "mid", Layer.mk "high"] [] false).layers =
      [Layer.mk "low"] ++ Layer.mk "mid" :: [Layer.mk "high"]) ∧
    Layer.mk "mid" ∉ [Layer.mk "low"] ∧
    _get_modules_in_downstream_layers
        (Contract.init "c" ["pkg"] [Layer.mk "low", Layer.mk "mid", Layer.mk "high"] [] false)
        (Layer.mk "mid") "pkg" (DependencyGraph.mk (fun _ => []) (fun _ _ _ => none)) =
      ["pkg.low"] := by
  refine ⟨rfl, by decide, ?_⟩
  rw [(claim_C5
      (Contract.init "c" ["pkg"] [Layer.mk "low", Layer.mk "mid", Layer.mk "high"] [] false)
      "pkg" (DependencyGraph.mk (fun _ => []) (fun _ _ _ => none))
      [Layer.mk "low"] [Layer.mk "high"] (Layer.mk "mid") rfl (by decide)).2]
  decide

/-- Claim C6: `check_dependencies` is deterministic and overwriting — the
second of two successive runs on the same read-only graph resets and
recomputes `illegal_dependencies`, so its final state (and recorded list)
equals that of a single run. -/
theorem claim_C6 (c : Contract) (dependencies : DependencyGraph) :
    check_dependencies (check_dependencies c dependencies) dependencies =
      check_dependencies c dependencies ∧
    illegal_after (check_dependencies c dependencies) dependencies =
      illegal_after c dependencies :=
  ⟨rfl, rfl⟩

/-- Claim C7: querying `is_kept` before `check_dependencies` has run fails
with an error rather than returning a default, and after
`check_dependencies` has run it returns `true` exactly when
`illegal_dependencies` is empty. -/
theorem claim_C7 :
    (∀ (name : String) (packages : List String) (layers : List Layer)
        (whitelisted_paths : List ImportPath) (recursive_flag : Bool),
        is_kept (Contract.init name packages layers whitelisted_paths recursive_flag) =
          .error
            "Cannot check whether contract is kept until check_dependencies is called.") ∧
    (∀ (c : Contract) (dependencies : DependencyGraph),
        is_kept (check_dependencies c dependencies) = .ok true ↔
          illegal_after c dependencies = []) := by
  constructor
  · intro name packages layers whitelisted_paths recursive_flag
    rfl
  · intro c dependencies
    simp [is_kept, check_dependencies, List.length_eq_zero]

/-- Claim C9: the `recursive` flag is stored but never consulted by the
detection algorithm — two contracts identical except for that flag yield
identical `illegal_dependencies` and identical `is_kept`. -/
theorem claim_C9 (name : String) (packages : List String) (layers : List Layer)
    (whitelisted_paths : List ImportPath) (r1 r2 : Bool)
    (dependencies : DependencyGraph) :
    illegal_after (Contract.init name packages layers whitelisted_paths r1) dependencies =
      illegal_after (Contract.init name packages layers whitelisted_paths r2)
        dependencies ∧
    is_kept (check_dependencies
        (Contract.init name packages layers whitelisted_paths r1) dependencies) =
      is_kept (check_dependencies
        (Contract.init name packages layers whitelisted_paths r2) dependencies) :=
  ⟨rfl, rfl⟩

/-- Claim C2: a path found by the graph is discarded exactly when some
interior node (both endpoints excluded) equals the root module
`package.L` of a declared layer `L` other than the layer being checked;
otherwise it is submitted to the aggregator. -/
theorem claim_C2 (c : Contract) (dependencies : DependencyGraph) (package : String)
    (layer : Layer) (illegal : List (List String))
    (upstream_module downstream_module : String) (path : List String)
    (hnd : (c.layers.map Layer.name).Nodup) (hmem : layer ∈ c.layers)
    (hfp : dependencies.find_path downstream_module upstream_module
        c.whitelisted_paths = some path)
    (hne : path ≠ []) :
    (_path_is_via_another_layer c path layer package = true ↔
      ∃ m ∈ (path.drop 1).dropLast, ∃ other ∈ c.layers,
        other ≠ layer ∧ m = package ++ "." ++ other.name) ∧
    check_pair c dependencies package layer illegal upstream_module downstream_module =
      (if _path_is_via_another_layer c path layer package then illegal
       else _update_illegal_dependencies illegal path) := by
  have hndl : c.layers.Nodup := hnd.of_map _
  constructor
  · unfold _path_is_via_another_layer
    simp only [List.any_eq_true, List.mem_map, decide_eq_true_eq]
    constructor
    · rintro ⟨m, hm, other, hother, heq⟩
      exact ⟨m, hm, other, (hndl.mem_erase_iff.mp hother).2,
        (hndl.mem_erase_iff.mp hother).1, heq.symm⟩
    · rintro ⟨m, hm, other, hother, hne', heq⟩
      exact ⟨m, hm, other, hndl.mem_erase_iff.mpr ⟨hne', hother⟩, heq.symm⟩
  · simp only [check_pair, hfp]
    by_cases hvia : _path_is_via_another_layer c path layer package = true
    · rw [if_pos hvia]
      have : (!path.isEmpty && !(_path_is_via_another_layer c path layer package)) = false := by
        simp [hvia]
      rw [this]
      simp
    · rw [if_neg hvia]
      have hvia' : _path_is_via_another_layer c path layer package = false := by
        cases h' : _path_is_via_another_layer c path layer package
        · rfl
        · exact absurd h' hvia
      have hpe : path.isEmpty = false := by
        cases path
        · exact absurd rfl hne
        · rfl
      have : (!path.isEmpty && !(_path_is_via_another_layer c path layer package)) = true := by
        simp [hvia', hpe]
      rw [this]
      simp

theorem claim_C2_witness :
    _path_is_via_another_layer
        (Contract.init "c" ["pkg"] [Layer.mk "low", Layer.mk "mid", Layer.mk "high"] [] false)
        ["pkg.low", "pkg.mid", "pkg.high"] (Layer.mk "high") "pkg" = true :=
  (claim_C2
      (Contract.init "c" ["pkg"] [Layer.mk "low", Layer.mk "mid", Layer.mk "high"] [] false)
      (DependencyGraph.mk (fun _ => [])
        (fun u d _ =>
          if (u, d) = ("pkg.low", "pkg.high") then
            some ["pkg.low", "pkg.mid", "pkg.high"]
          else none))
      "pkg" (Layer.mk "high") [] "pkg.high" "pkg.low"
      ["pkg.low", "pkg.mid", "pkg.high"] (by decide) (by decide) (by decide)
      (by decide)).1.mpr
    ⟨"pkg.mid", by decide, Layer.mk "mid", by decide, by decide, by decide⟩

/-! ### Contract loading -/

lemma parse_whitelist_entry_error (whitelist_data : String)
    (h : (split_whitelist_data whitelist_data).length ≠ 2) :
    ∃ msg, parse_whitelist_entry whitelist_data = .error msg := by
  unfold parse_whitelist_entry
  cases hs : split_whitelist_data whitelist_data with
  | nil => exact ⟨_, rfl⟩
  | cons a t =>
    cases t with
    | nil => exact ⟨_, rfl⟩
    | cons b t2 =>
      cases t2 with
      | nil =>
        exfalso
        apply h
        rw [hs]
        rfl
      | cons c2 t3 => exact ⟨_, rfl⟩

lemma parse_whitelisted_paths_error (l : List String) (e : String)
    (he : e ∈ l) (h : (split_whitelist_data e).length ≠ 2) :
    ∃ msg, parse_whitelisted_paths l = .error msg := by
  induction l with
  | nil => simp at he
  | cons d rest ih =>
    rcases List.mem_cons.mp he with rfl | hmem
    · rcases parse_whitelist_entry_error e h with ⟨msg, hmsg⟩
      exact ⟨msg, by simp [parse_whitelisted_paths, hmsg]⟩
    · cases hd : parse_whitelist_entry d with
      | error msg => exact ⟨msg, by simp [parse_whitelisted_paths, hd]⟩
      | ok ip =>
        rcases ih hmem with ⟨msg, hmsg⟩
        exact ⟨msg, by simp [parse_whitelisted_paths, hd, hmsg]⟩

/-- Claim C8: a configuration whose whitelist contains a malformed entry
(one whose Python split on the `" <- "` separator does not yield exactly an
importer and an imported part) makes `contract_from_yaml` fail with a
validation error — no `Contract` is constructed, so the malformed entry can
never be silently dropped nor reach `check_dependencies`; a well-formed
`importer <- imported` entry parses to the corresponding `ImportPath`
without error, and when every entry parses the contract is built with
exactly those whitelist edges. -/
theorem claim_C8 (key : String) (data : ContractData) :
    (∀ e ∈ data.whitelisted_paths, (split_whitelist_data e).length ≠ 2 →
        ∃ msg, contract_from_yaml key data = .error msg) ∧
    (∀ s a b, split_whitelist_data s = [a, b] →
        parse_whitelist_entry s = .ok (ImportPath.mk a b)) ∧
    (∀ ips, parse_whitelisted_paths data.whitelisted_paths = .ok ips →
        contract_from_yaml key data =
          .ok (Contract.mk key data.packages
            (data.layers.map (fun layer_data => Layer.mk layer_data)) ips false none)) := by
  refine ⟨?_, ?_, ?_⟩
  · intro e he hlen
    rcases parse_whitelisted_paths_error data.whitelisted_paths e he hlen with ⟨msg, hmsg⟩
    exact ⟨msg, by simp [contract_from_yaml, hmsg]⟩
  · intro s a b hs
    simp [parse_whitelist_entry, hs]
  · intro ips hips
    simp [contract_from_yaml, hips]

theorem claim_C8_witness :
    (∃ msg,
      contract_from_yaml "contract"
          (ContractData.mk ["low", "high"] ["app.foo - app.bar"] ["app"]) =
        .error msg) ∧
    parse_whitelist_entry "app.foo <- app.bar" =
      .ok (ImportPath.mk "app.foo" "app.bar") :=
  ⟨(claim_C8 "contract" (ContractData.mk ["low", "high"] ["app.foo - app.bar"] ["app"])).1
      "app.foo - app.bar" (by decide) (by decide),
   (claim_C8 "contract" (ContractData.mk ["low", "high"] ["app.foo - app.bar"] ["app"])).2.1
      "app.foo <- app.bar" "app.foo" "app.bar" (by decide)⟩

/-! ### The concrete path search -/

lemma mem_stepWalks (edges : List (String × String)) (walks : List (List String))
    (w : List String) :
    w ∈ stepWalks edges walks ↔
      ∃ c rest, (c :: rest) ∈ walks ∧ ∃ e ∈ edges, e.1 = c ∧ w = e.2 :: c :: rest := by
  unfold stepWalks
  simp only [List.mem_flatMap]
  constructor
  · rintro ⟨w0, hw0, hw⟩
    cases w0 with
    | nil => simp at hw
    | cons c rest =>
      simp only [List.mem_map, List.mem_filter, decide_eq_true_eq] at hw
      rcases hw with ⟨e, ⟨he, hec⟩, rfl⟩
      exact ⟨c, rest, hw0, e, he, hec, rfl⟩
  · rintro ⟨c, rest, hmem, e, he, hec, rfl⟩
    refine ⟨c :: rest, hmem, ?_⟩
    simp only [List.mem_map, List.mem_filter, decide_eq_true_eq]
    exact ⟨e, ⟨he, hec⟩, rfl⟩

lemma walksRevFrom_spec (edges : List (String × String)) (u : String) :
    ∀ (n : Nat) (w : List String), w ∈ walksRevFrom edges u n →
      w.length = n + 1 ∧ w.getLast? = some u ∧
        List.Chain' (fun a b => (b, a) ∈ edges) w := by
  intro n
  induction n with
  | zero =>
    intro w hw
    simp only [walksRevFrom, List.mem_singleton] at hw
    subst hw
    exact ⟨rfl, rfl, List.chain'_singleton u⟩
  | succ n ih =>
    intro w hw
    rw [walksRevFrom] at hw
    rcases (mem_stepWalks _ _ _).mp hw with ⟨c, rest, hmem, e, he, hec, rfl⟩
    rcases ih (c :: rest) hmem with ⟨hlen, hlast, hchain⟩
    refine ⟨?_, ?_, ?_⟩
    · simp only [List.length_cons] at hlen ⊢
      omega
    · rw [List.getLast?_cons_cons]
      exact hlast
    · rw [List.chain'_cons]
      refine ⟨?_, hchain⟩
      rw [← hec, Prod.mk.eta]
      exact he

lemma walksRevFrom_complete (edges : List (String × String)) (u : String) :
    ∀ (w : List String), w.getLast? = some u →
      List.Chain' (fun a b => (b, a) ∈ edges) w →
      ∀ n, w.length = n + 1 → w ∈ walksRevFrom edges u n := by
  intro w
  induction w with
  | nil =>
    intro h
    simp at h
  | cons a t ih =>
    intro hlast hchain n hlen
    cases t with
    | nil =>
      have ha : a = u := by simpa using hlast
      subst ha
      have hn : n = 0 := by
        simp only [List.length_cons, List.length_nil] at hlen
        omega
      subst hn
      simp [walksRevFrom]
    | cons b t2 =>
      cases n with
      | zero =>
        simp only [List.length_cons] at hlen
        omega
      | succ n =>
        rw [walksRevFrom]
        apply (mem_stepWalks _ _ _).mpr
        have hchain' := List.chain'_cons.mp hchain
        refine ⟨b, t2, ih ?_ hchain'.2 n ?_, (b, a), hchain'.1, rfl, rfl⟩
        · rw [List.getLast?_cons_cons] at hlast
          exact hlast
        · simp only [List.length_cons] at hlen ⊢
          omega

lemma range_findSome?_min {α : Type} (f : Nat → Option α) :
    ∀ (N n : Nat), n < N → (f n).isSome →
      ∃ m x, m ≤ n ∧ f m = some x ∧ (List.range N).findSome? f = some x := by
  intro N
  induction N with
  | zero =>
    intro n hn _
    omega
  | succ M ih =>
    intro n hn hf
    rw [List.range_succ, List.findSome?_append]
    by_cases hM : n < M
    · rcases ih n hM hf with ⟨m, x, hm, hfm, hfind⟩
      refine ⟨m, x, hm, hfm, ?_⟩
      rw [hfind]
      rfl
    · have hnM : n = M := by omega
      subst hnM
      cases hfind : (List.range n).findSome? f with
      | some y =>
        rcases List.exists_of_findSome?_eq_some hfind with ⟨m, hm, hfm⟩
        have hmn : m < n := List.mem_range.mp hm
        exact ⟨m, y, by omega, hfm, rfl⟩
      | none =>
        rcases Option.isSome_iff_exists.mp hf with ⟨x, hx⟩
        refine ⟨n, x, le_refl n, hx, ?_⟩
        rw [Option.none_or]
        simp [List.findSome?_cons, hx]

lemma concrete_find_path_spec (g : ConcreteGraph) (upstream downstream : String)
    (ignore_paths : List ImportPath) (p : List String)
    (h : concrete_find_path g upstream downstream ignore_paths = some p) :
    IsWalk (allowedEdges g ignore_paths) p upstream downstream ∧ p ≠ [] := by
  simp only [concrete_find_path] at h
  rcases Option.map_eq_some'.mp h with ⟨w, hfind, rfl⟩
  rcases List.exists_of_findSome?_eq_some hfind with ⟨n, _, hfn⟩
  have hw := List.mem_of_find?_eq_some hfn
  have hpred := List.find?_some hfn
  rcases walksRevFrom_spec _ _ n w hw with ⟨hlen, hlast, hchain⟩
  have hhead : w.head? = some downstream := by simpa using hpred
  have hwne : w ≠ [] := by
    intro h'
    subst h'
    simp at hlen
  refine ⟨⟨?_, ?_, ?_⟩, ?_⟩
  · rw [List.head?_reverse]
    exact hlast
  · rw [List.getLast?_reverse]
    exact hhead
  · rw [List.chain'_reverse]
    exact hchain
  · simp [hwne]

lemma exists_dup_split {α : Type} (l : List α) (h : ¬ l.Nodup) :
    ∃ a x b c2, l = a ++ x :: (b ++ x :: c2) := by
  induction l with
  | nil => exact absurd List.nodup_nil h
  | cons y t ih =>
    by_cases hyt : y ∈ t
    · rcases List.append_of_mem hyt with ⟨b, c2, rfl⟩
      exact ⟨[], y, b, c2, rfl⟩
    · have hnt : ¬ t.Nodup := fun hnd => h (List.nodup_cons.mpr ⟨hyt, hnd⟩)
      rcases ih hnt with ⟨a, x, b, c2, rfl⟩
      exact ⟨y :: a, x, b, c2, rfl⟩

lemma walk_cut (edges : List (String × String)) (u v : String)
    (a b c2 : List String) (x : String)
    (hw : IsWalk edges (a ++ x :: (b ++ x :: c2)) u v) :
    IsWalk edges (a ++ x :: c2) u v := by
  obtain ⟨hhead, hlast, hchain⟩ := hw
  have hsplit : x :: (b ++ x :: c2) = (x :: b) ++ (x :: c2) := by simp
  refine ⟨?_, ?_, ?_⟩
  · cases a with
    | nil => simpa using hhead
    | cons a0 t => simpa using hhead
  · rw [List.getLast?_append_of_ne_nil a (by simp)] at hlast
    rw [hsplit, List.getLast?_append_of_ne_nil (x :: b) (by simp)] at hlast
    rw [List.getLast?_append_of_ne_nil a (by simp)]
    exact hlast
  · have h1 := List.chain'_append.mp hchain
    have hl2 : List.Chain' (fun p q => (p, q) ∈ edges) ((x :: b) ++ (x :: c2)) := by
      rw [← hsplit]
      exact h1.2.1
    have h2 := List.chain'_append.mp hl2
    apply List.chain'_append.mpr
    refine ⟨h1.1, h2.2.1, ?_⟩
    intro p hp q hq
    exact h1.2.2 p hp q (by simpa using hq)

lemma walk_shorten (edges : List (String × String)) (u v : String) :
    ∀ (n : Nat) (q : List String), q.length ≤ n → IsWalk edges q u v →
      ∃ p, IsWalk edges p u v ∧ p.Nodup ∧ p.length ≤ q.length := by
  intro n
  induction n with
  | zero =>
    intro q hlen hq
    have hq0 : q = [] := List.length_eq_zero.mp (Nat.le_zero.mp hlen)
    subst hq0
    obtain ⟨hhead, _, _⟩ := hq
    simp at hhead
  | succ n ih =>
    intro q hlen hq
    by_cases hnd : q.Nodup
    · exact ⟨q, hq, hnd, le_refl _⟩
    · rcases exists_dup_split q hnd with ⟨a, x, b, c2, rfl⟩
      have hcut := walk_cut edges u v a b c2 x hq
      have hlen1 : (a ++ x :: c2).length = a.length + c2.length + 1 := by
        simp
        omega
      have hlen2 : (a ++ x :: (b ++ x :: c2)).length =
          a.length + b.length + c2.length + 2 := by
        simp
        omega
      rcases ih (a ++ x :: c2) (by omega) hcut with ⟨p, hp, hpnd, hple⟩
      exact ⟨p, hp, hpnd, by omega⟩

lemma walk_tail_mem_snd (edges : List (String × String)) :
    ∀ (q : List String), List.Chain' (fun a b => (a, b) ∈ edges) q →
      ∀ y ∈ q.drop 1, y ∈ edges.map Prod.snd := by
  intro q
  induction q with
  | nil =>
    intro _ y hy
    simp at hy
  | cons a t ih =>
    intro hchain y hy
    cases t with
    | nil => simp at hy
    | cons b t2 =>
      have h1 := List.chain'_cons.mp hchain
      simp only [List.drop_one, List.tail_cons] at hy
      rcases List.mem_cons.mp hy with rfl | hy2
      · exact List.mem_map.mpr ⟨(a, y), h1.1, rfl⟩
      · exact ih h1.2 y (by simpa using hy2)

lemma nodup_walk_length_le (edges : List (String × String)) (u v : String)
    (q : List String) (hq : IsWalk edges q u v) (hnd : q.Nodup) :
    q.length ≤ edges.length + 1 := by
  obtain ⟨hhead, _, hchain⟩ := hq
  have hsub : q ⊆ u :: edges.map Prod.snd := by
    intro y hy
    cases q with
    | nil => simp at hy
    | cons a t =>
      have ha : a = u := by simpa using hhead
      rcases List.mem_cons.mp hy with rfl | hyt
      · exact ha ▸ List.mem_cons_self _ _
      · exact List.mem_cons_of_mem _
          (walk_tail_mem_snd edges (a :: t) hchain y (by simpa using hyt))
  have hle := (hnd.subperm hsub).length_le
  simpa using hle

lemma concrete_find_path_min (g : ConcreteGraph) (upstream downstream : String)
    (ignore_paths : List ImportPath) (q : List String)
    (hq : IsWalk (allowedEdges g ignore_paths) q upstream downstream) :
    ∃ p, concrete_find_path g upstream downstream ignore_paths = some p ∧
      p.length ≤ q.length := by
  rcases walk_shorten (allowedEdges g ignore_paths) upstream downstream q.length q
      (le_refl _) hq with ⟨q2, hq2, hnd, hle⟩
  obtain ⟨hhead, hlast, hchain⟩ := hq2
  have hq2ne : q2 ≠ [] := by
    intro h'
    subst h'
    simp at hhead
  have hq2len : 1 ≤ q2.length := List.length_pos.mpr hq2ne
  have hrev : q2.reverse ∈ walksRevFrom (allowedEdges g ignore_paths) upstream
      (q2.length - 1) := by
    apply walksRevFrom_complete
    · rw [List.getLast?_reverse]
      exact hhead
    · rw [List.chain'_reverse]
      exact hchain
    · simp only [List.length_reverse]
      omega
  have hfind : ((walksRevFrom (allowedEdges g ignore_paths) upstream
      (q2.length - 1)).find? (fun w => decide (w.head? = some downstream))).isSome := by
    apply List.find?_isSome.mpr
    refine ⟨q2.reverse, hrev, ?_⟩
    simp [List.head?_reverse, hlast]
  have hbound : q2.length - 1 < (allowedEdges g ignore_paths).length + 1 := by
    have := nodup_walk_length_le (allowedEdges g ignore_paths) upstream downstream q2
      ⟨hhead, hlast, hchain⟩ hnd
    omega
  rcases range_findSome?_min
      (fun n => (walksRevFrom (allowedEdges g ignore_paths) upstream n).find?
        (fun w => decide (w.head? = some downstream)))
      ((allowedEdges g ignore_paths).length + 1) (q2.length - 1) hbound hfind with
    ⟨m, w, hm, hfm, hfindSome⟩
  refine ⟨w.reverse, ?_, ?_⟩
  · simp only [concrete_find_path]
    rw [hfindSome]
    rfl
  · have hwmem := List.mem_of_find?_eq_some hfm
    have hwlen := (walksRevFrom_spec _ _ m w hwmem).1
    simp only [List.length_reverse, hwlen]
    omega

/-! ### Support for the end-to-end detection theorem -/

lemma interior_split (p : List String) (m : String)
    (hm : m ∈ (p.drop 1).dropLast) :
    ∃ a b, p = a ++ m :: b ∧ a ≠ [] ∧ b ≠ [] := by
  cases p with
  | nil => simp at hm
  | cons x t =>
    simp only [List.drop_one, List.tail_cons] at hm
    have htne : t ≠ [] := by
      intro h'
      rw [h'] at hm
      simp at hm
    rcases List.append_of_mem hm with ⟨s, r, hsr⟩
    have ht : t = (s ++ m :: r) ++ [t.getLast htne] := by
      rw [← hsr]
      exact (List.dropLast_append_getLast htne).symm
    refine ⟨x :: s, r ++ [t.getLast htne], ?_, by simp, by simp⟩
    rw [List.cons_append]
    congr 1
    conv_lhs => rw [ht]
    simp

lemma walk_split_left (edges : List (String × String)) (u v : String)
    (a b : List String) (m : String)
    (hw : IsWalk edges (a ++ m :: b) u v) :
    IsWalk edges (a ++ [m]) u m := by
  obtain ⟨hhead, hlast, hchain⟩ := hw
  refine ⟨?_, ?_, ?_⟩
  · cases a with
    | nil => simpa using hhead
    | cons a0 t => simpa using hhead
  · rw [List.getLast?_append_of_ne_nil a (by simp)]
    rfl
  · have h1 := List.chain'_append.mp hchain
    apply List.chain'_append.mpr
    refine ⟨h1.1, List.chain'_singleton m, ?_⟩
    intro p hp q hq
    simp only [List.head?_cons, Option.mem_def, Option.some.injEq] at hq
    subst hq
    exact h1.2.2 p hp m (by simp)

lemma walk_split_right (edges : List (String × String)) (u v : String)
    (a b : List String) (m : String)
    (hw : IsWalk edges (a ++ m :: b) u v) :
    IsWalk edges (m :: b) m v := by
  obtain ⟨hhead, hlast, hchain⟩ := hw
  refine ⟨rfl, ?_, (List.chain'_append.mp hchain).2.1⟩
  rw [List.getLast?_append_of_ne_nil a (by simp)] at hlast
  exact hlast

lemma getElem_not_mem_take (l : List Layer) (j : Nat) (hj : j < l.length)
    (hnd : l.Nodup) : l.get ⟨j, hj⟩ ∉ l.take j := by
  intro hmem
  have hsplit : l.take j ++ l.drop j = l := List.take_append_drop j l
  have hnd2 : (l.take j ++ l.drop j).Nodup := by
    rw [hsplit]
    exact hnd
  have hdisj := List.disjoint_of_nodup_append hnd2
  have hdropmem : l.get ⟨j, hj⟩ ∈ l.drop j := by
    rw [List.drop_eq_get_cons hj]
    exact List.mem_cons_self _ _
  exact hdisj hmem hdropmem

lemma indexOf_get_eq (l : List Layer) (j : Nat) (hj : j < l.length) (hnd : l.Nodup) :
    l.indexOf (l.get ⟨j, hj⟩) = j := by
  set x := l.get ⟨j, hj⟩ with hx
  have hdecomp : l = l.take j ++ x :: l.drop (j + 1) := by
    rw [hx, ← List.drop_eq_get_cons hj, List.take_append_drop]
  have hnm : x ∉ l.take j := getElem_not_mem_take l j hj hnd
  calc l.indexOf x
      = (l.take j ++ x :: l.drop (j + 1)).indexOf x := by rw [← hdecomp]
    _ = (l.take j).length := indexOf_append_not_mem _ x _ hnm
    _ = j := by
        simp only [List.length_take]
        omega

lemma root_mem_downstream (c : Contract) (package : String)
    (dependencies : DependencyGraph) (i j : Nat) (hi : i < c.layers.length)
    (hj : j < c.layers.length) (hij : i < j) (hnd : c.layers.Nodup) :
    (package ++ "." ++ (c.layers.get ⟨i, hi⟩).name) ∈
      _get_modules_in_downstream_layers c (c.layers.get ⟨j, hj⟩) package dependencies := by
  unfold _get_modules_in_downstream_layers _get_layers_downstream_of
  rw [indexOf_get_eq c.layers j hj hnd]
  apply List.mem_map.mpr
  refine ⟨c.layers.get ⟨i, hi⟩, ?_, rfl⟩
  apply List.mem_reverse.mpr
  have hitake : i < (c.layers.take j).length := by
    simp only [List.length_take]
    omega
  have hgt : (c.layers.take j).get ⟨i, hitake⟩ = c.layers.get ⟨i, hi⟩ := by
    simp [List.get_take]
  rw [← hgt]
  exact List.get_mem _ _ _

lemma update_mem (l : List (List String)) (path r : List String)
    (h : r ∈ _update_illegal_dependencies l path) : r ∈ l ∨ r = path := by
  rw [update_eq] at h
  by_cases hflag : add_path_flag path l true = true
  · rw [if_pos hflag] at h
    rcases List.mem_append.mp h with h | h
    · exact Or.inl (List.mem_of_mem_filter h)
    · exact Or.inr (by simpa using h)
  · rw [if_neg hflag] at h
    exact Or.inl (List.mem_of_mem_filter h)

lemma check_pair_pres_ne (c : Contract) (dependencies : DependencyGraph)
    (package : String) (layer : Layer) (acc : List (List String))
    (upstream_module downstream_module : String) (h : acc ≠ []) :
    check_pair c dependencies package layer acc upstream_module downstream_module ≠ [] := by
  cases hfp : dependencies.find_path downstream_module upstream_module
      c.whitelisted_paths with
  | none => simpa [check_pair, hfp] using h
  | some p =>
    simp only [check_pair, hfp]
    by_cases hcond :
        (!p.isEmpty && !(_path_is_via_another_layer c p layer package)) = true
    · rw [if_pos hcond]
      exact update_ne_nil acc p
    · rw [if_neg hcond]
      exact h

lemma check_pair_establishes (c : Contract) (dependencies : DependencyGraph)
    (package : String) (layer : Layer) (upstream_module downstream_module : String)
    (p : List String)
    (hfp : dependencies.find_path downstream_module upstream_module
      c.whitelisted_paths = some p)
    (hpne : p ≠ [])
    (hvia : _path_is_via_another_layer c p layer package = false) :
    ∀ acc, check_pair c dependencies package layer acc upstream_module
      downstream_module ≠ [] := by
  intro acc
  simp only [check_pair, hfp]
  have hpe : p.isEmpty = false := by
    cases p
    · exact absurd rfl hpne
    · rfl
  rw [if_pos (by simp [hpe, hvia])]
  exact update_ne_nil acc p

lemma check_layer_pres_ne (c : Contract) (layer : Layer) (package : String)
    (dependencies : DependencyGraph) (acc : List (List String)) (h : acc ≠ []) :
    _check_layer_does_not_import_downstream c layer package dependencies acc ≠ [] := by
  unfold _check_layer_does_not_import_downstream
  apply foldl_preserves (fun a : List (List String) => a ≠ []) _ _ _ acc h
  intro a u _ ha
  apply foldl_preserves (fun a : List (List String) => a ≠ []) _ _ _ a ha
  intro a2 d _ ha2
  exact check_pair_pres_ne c dependencies package layer a2 u d ha2

lemma check_layer_establishes (c : Contract) (layer : Layer) (package : String)
    (dependencies : DependencyGraph) (upstream_module downstream_module : String)
    (hu : upstream_module ∈ _get_modules_in_layer layer package dependencies)
    (hd : downstream_module ∈
      _get_modules_in_downstream_layers c layer package dependencies)
    (p : List String)
    (hfp : dependencies.find_path downstream_module upstream_module
      c.whitelisted_paths = some p)
    (hpne : p ≠ [])
    (hvia : _path_is_via_another_layer c p layer package = false) :
    ∀ acc, _check_layer_does_not_import_downstream c layer package dependencies
      acc ≠ [] := by
  intro acc
  unfold _check_layer_does_not_import_downstream
  apply foldl_establishes (fun a : List (List String) => a ≠ []) _ upstream_module
      ?_ ?_ _ acc hu
  · intro a y ha
    apply foldl_preserves (fun a : List (List String) => a ≠ []) _ _ _ a ha
    intro a2 d _ ha2
    exact check_pair_pres_ne c dependencies package layer a2 y d ha2
  · intro a
    apply foldl_establishes (fun a : List (List String) => a ≠ []) _ downstream_module
        ?_ ?_ _ a hd
    · intro a2 d2 ha2
      exact check_pair_pres_ne c dependencies package layer a2 upstream_module d2 ha2
    · intro a2
      exact check_pair_establishes c dependencies package layer upstream_module
        downstream_module p hfp hpne hvia a2

lemma illegal_after_ne_nil (c : Contract) (dependencies : DependencyGraph)
    (package : String) (hpkg : package ∈ c.packages) (layer : Layer)
    (hlay : layer ∈ c.layers) (upstream_module downstream_module : String)
    (hu : upstream_module ∈ _get_modules_in_layer layer package dependencies)
    (hd : downstream_module ∈
      _get_modules_in_downstream_layers c layer package dependencies)
    (p : List String)
    (hfp : dependencies.find_path downstream_module upstream_module
      c.whitelisted_paths = some p)
    (hpne : p ≠ [])
    (hvia : _path_is_via_another_layer c p layer package = false) :
    illegal_after c dependencies ≠ [] := by
  unfold illegal_after
  apply foldl_establishes (fun a : List (List String) => a ≠ []) _ package ?_ ?_ _ _ hpkg
  · intro a y ha
    apply foldl_preserves (fun a : List (List String) => a ≠ []) _ _ _ a ha
    intro a2 lay2 _ ha2
    exact check_layer_pres_ne c lay2 y dependencies a2 ha2
  · intro a
    apply foldl_establishes (fun a : List (List String) => a ≠ []) _ layer ?_ ?_
        c.layers.reverse a (List.mem_reverse.mpr hlay)
    · intro a2 lay2 ha2
      exact check_layer_pres_ne c lay2 package dependencies a2 ha2
    · intro a2
      exact check_layer_establishes c layer package dependencies upstream_module
        downstream_module hu hd p hfp hpne hvia a2

lemma check_pair_good (c : Contract) (g : ConcreteGraph) (package : String)
    (layer : Layer) (hpkg : package ∈ c.packages) (hlay : layer ∈ c.layers)
    (acc : List (List String)) (u d : String)
    (hu : u ∈ _get_modules_in_layer layer package g.toGraph)
    (hd : d ∈ _get_modules_in_downstream_layers c layer package g.toGraph)
    (hacc : ∀ r ∈ acc, GoodPath c g.toGraph r) :
    ∀ r ∈ check_pair c g.toGraph package layer acc u d, GoodPath c g.toGraph r := by
  intro r hr
  cases hfp : (ConcreteGraph.toGraph g).find_path d u c.whitelisted_paths with
  | none =>
    simp only [check_pair, hfp] at hr
    exact hacc r hr
  | some p =>
    simp only [check_pair, hfp] at hr
    by_cases hcond :
        (!p.isEmpty && !(_path_is_via_another_layer c p layer package)) = true
    · rw [if_pos hcond] at hr
      rcases update_mem acc p r hr with h | rfl
      · exact hacc r h
      · have hspec := concrete_find_path_spec g d u c.whitelisted_paths r hfp
        exact ⟨package, hpkg, layer, hlay, u, hu, d, hd, hspec.1.1, hspec.1.2.1⟩
    · rw [if_neg hcond] at hr
      exact hacc r hr

lemma illegal_after_good (c : Contract) (g : ConcreteGraph) :
    ∀ r ∈ illegal_after c g.toGraph, GoodPath c g.toGraph r := by
  unfold illegal_after
  refine foldl_preserves (fun a => ∀ r ∈ a, GoodPath c g.toGraph r) _ _ ?_ [] ?_
  · intro a package hpkgmem ha
    refine foldl_preserves (fun a => ∀ r ∈ a, GoodPath c g.toGraph r) _ _ ?_ a ha
    intro a2 layer hlaymem ha2
    unfold _check_layer_does_not_import_downstream
    refine foldl_preserves (fun a => ∀ r ∈ a, GoodPath c g.toGraph r) _ _ ?_ a2 ha2
    intro a3 u humem ha3
    refine foldl_preserves (fun a => ∀ r ∈ a, GoodPath c g.toGraph r) _ _ ?_ a3 ha3
    intro a4 d hdmem ha4
    exact check_pair_good c g package layer hpkgmem (List.mem_reverse.mp hlaymem)
      a4 u d humem hdmem ha4
  · intro r hr
    simp at hr

/-- Claim C1, amended: for every contract with pairwise-distinct layer
names and every concrete import graph, if the root module of a strictly
lower layer reaches, along import edges not covered by the whitelist, a
module of a higher layer's queried module set, then after
`check_dependencies` the recorded list is nonempty and `is_kept` is false;
moreover every recorded violation path's first and last elements equal the
importing (queried lower-layer root) and imported (queried this-layer)
module names of one of the checked pairs.  (Amendments forced by the
counterexample: the importing module must be a lower layer's root module —
descendants of lower layers are never queried as importers — and the
endpoint property is attributed to some checked pair, since subset
domination may replace one pair's recorded path by another's.) -/
theorem claim_C1_amended (c : Contract) (g : ConcreteGraph) (package : String)
    (i j : Nat) (hi : i < c.layers.length) (hj : j < c.layers.length) (hij : i < j)
    (hnd : (c.layers.map Layer.name).Nodup) (hpkg : package ∈ c.packages)
    (U : String) (q : List String)
    (hU : U ∈ _get_modules_in_layer (c.layers.get ⟨j, hj⟩) package g.toGraph)
    (hwalk : IsWalk (allowedEdges g c.whitelisted_paths) q
      (package ++ "." ++ (c.layers.get ⟨i, hi⟩).name) U) :
    illegal_after c g.toGraph ≠ [] ∧
    is_kept (check_dependencies c g.toGraph) = .ok false ∧
    ∀ r ∈ illegal_after c g.toGraph, GoodPath c g.toGraph r := by
  have hndl : c.layers.Nodup := hnd.of_map _
  set T : Set ℕ := {n | ∃ j2, ∃ hj2 : j2 < c.layers.length,
    ∃ i2, ∃ hi2 : i2 < c.layers.length, i2 < j2 ∧
    ∃ U2, U2 ∈ _get_modules_in_layer (c.layers.get ⟨j2, hj2⟩) package g.toGraph ∧
    ∃ p, concrete_find_path g (package ++ "." ++ (c.layers.get ⟨i2, hi2⟩).name) U2
        c.whitelisted_paths = some p ∧ p.length = n} with hTdef
  have hTne : T.Nonempty := by
    rcases concrete_find_path_min g (package ++ "." ++ (c.layers.get ⟨i, hi⟩).name) U
        c.whitelisted_paths q hwalk with ⟨p0, hp0, _⟩
    exact ⟨p0.length, j, hj, i, hi, hij, U, hU, p0, hp0, rfl⟩
  obtain ⟨j2, hj2, i2, hi2, hij2, U2, hU2, p, hfp, hplen⟩ := Nat.sInf_mem hTne
  have hspec := concrete_find_path_spec g
    (package ++ "." ++ (c.layers.get ⟨i2, hi2⟩).name) U2 c.whitelisted_paths p hfp
  have hW := hspec.1
  have hpne := hspec.2
  have hvia : _path_is_via_another_layer c p (c.layers.get ⟨j2, hj2⟩) package = false := by
    cases hv : _path_is_via_another_layer c p (c.layers.get ⟨j2, hj2⟩) package
    · rfl
    exfalso
    have hv' := hv
    simp only [_path_is_via_another_layer, List.any_eq_true, decide_eq_true_eq,
      List.mem_map] at hv'
    obtain ⟨m, hmint, other, hother, hmeq⟩ := hv'
    have hotherlayers : other ∈ c.layers := List.mem_of_mem_erase hother
    have hotherne : other ≠ c.layers.get ⟨j2, hj2⟩ := (hndl.mem_erase_iff.mp hother).1
    rcases List.mem_iff_get.mp hotherlayers with ⟨⟨k, hk⟩, hkget⟩
    have hknj2 : k ≠ j2 := by
      intro hkj
      apply hotherne
      rw [← hkget]
      subst hkj
      rfl
    obtain ⟨a, b, hpeq, hane, hbne⟩ := interior_split p m hmint
    rw [hpeq] at hW
    have hleft := walk_split_left _ _ _ a b m hW
    have hright := walk_split_right _ _ _ a b m hW
    have hlen : p.length = a.length + b.length + 1 := by
      rw [hpeq]
      simp
      omega
    have ha1 : 1 ≤ a.length := List.length_pos.mpr hane
    have hb1 : 1 ≤ b.length := List.length_pos.mpr hbne
    have hmisroot : m = package ++ "." ++ (c.layers.get ⟨k, hk⟩).name := by
      rw [hkget, hmeq]
    rcases Nat.lt_or_ge k j2 with hk_lt | hk_ge
    · rw [hmisroot] at hright
      rcases concrete_find_path_min g _ U2 c.whitelisted_paths _ hright with
        ⟨p2, hp2, hp2len⟩
      have hT2 : p2.length ∈ T := ⟨j2, hj2, k, hk, hk_lt, U2, hU2, p2, hp2, rfl⟩
      have hle := Nat.sInf_le hT2
      have hp2len2 : p2.length ≤ b.length + 1 := by simpa using hp2len
      omega
    · have hk_gt : j2 < k := lt_of_le_of_ne hk_ge (Ne.symm hknj2)
      have hrootmem : (package ++ "." ++ (c.layers.get ⟨k, hk⟩).name) ∈
          _get_modules_in_layer (c.layers.get ⟨k, hk⟩) package g.toGraph := by
        unfold _get_modules_in_layer
        exact List.mem_cons_self _ _
      rw [hmisroot] at hleft
      rcases concrete_find_path_min g _ _ c.whitelisted_paths _ hleft with
        ⟨p2, hp2, hp2len⟩
      have hT2 : p2.length ∈ T :=
        ⟨k, hk, i2, hi2, hk_gt.trans_le' (le_of_lt hij2), _, hrootmem, p2, hp2, rfl⟩
      have hle := Nat.sInf_le hT2
      have hp2len2 : p2.length ≤ a.length + 1 := by simpa using hp2len
      omega
  have hne : illegal_after c g.toGraph ≠ [] :=
    illegal_after_ne_nil c g.toGraph package hpkg (c.layers.get ⟨j2, hj2⟩)
      (List.get_mem _ _ _) U2 (package ++ "." ++ (c.layers.get ⟨i2, hi2⟩).name)
      hU2 (root_mem_downstream c package g.toGraph i2 j2 hi2 hj2 hij2 hndl)
      p hfp hpne hvia
  refine ⟨hne, ?_, illegal_after_good c g⟩
  simp only [check_dependencies, is_kept]
  cases hil : illegal_after c g.toGraph with
  | nil => exact absurd hil hne
  | cons r t => rfl

/-- Claim C1, counterexample.  The claim quantifies over every module in a
lower layer, but the checker queries only the lower layers' root modules as
importers: in the graph where `app.low.util` (a descendant module of layer
`low`) directly imports `app.high` (the root of layer `high`), with an
empty whitelist, no violation is recorded and `is_kept` is true. -/
theorem claim_C1_counterexample :
    "app.low.util" ∈ _get_modules_in_layer (Layer.mk "low") "app"
      (ConcreteGraph.toGraph (ConcreteGraph.mk ["app.low", "app.low.util", "app.high"]
        [("app.low.util", "app.high")])) ∧
    "app.high" ∈ _get_modules_in_layer (Layer.mk "high") "app"
      (ConcreteGraph.toGraph (ConcreteGraph.mk ["app.low", "app.low.util", "app.high"]
        [("app.low.util", "app.high")])) ∧
    ("app.low.util", "app.high") ∈ allowedEdges
      (ConcreteGraph.mk ["app.low", "app.low.util", "app.high"]
        [("app.low.util", "app.high")]) [] ∧
    illegal_after
      (Contract.init "contract" ["app"] [Layer.mk "low", Layer.mk "high"] [] false)
      (ConcreteGraph.toGraph (ConcreteGraph.mk ["app.low", "app.low.util", "app.high"]
        [("app.low.util", "app.high")])) = [] ∧
    is_kept (check_dependencies
      (Contract.init "contract" ["app"] [Layer.mk "low", Layer.mk "high"] [] false)
      (ConcreteGraph.toGraph (ConcreteGraph.mk ["app.low", "app.low.util", "app.high"]
        [("app.low.util", "app.high")]))) = .ok true := by
  exact ⟨by decide, by decide, by decide, by decide, by rfl⟩

theorem claim_C1_witness :
    IsWalk
      (allowedEdges (ConcreteGraph.mk ["app.low", "app.high"] [("app.low", "app.high")])
        (Contract.init "contract" ["app"] [Layer.mk "low", Layer.mk "high"] [] false).whitelisted_paths)
      ["app.low", "app.high"]
      ("app" ++ "." ++
        (((Contract.init "contract" ["app"] [Layer.mk "low", Layer.mk "high"] []
          false).layers).get ⟨0, by decide⟩).name)
      "app.high" ∧
    illegal_after
      (Contract.init "contract" ["app"] [Layer.mk "low", Layer.mk "high"] [] false)
      (ConcreteGraph.toGraph
        (ConcreteGraph.mk ["app.low", "app.high"] [("app.low", "app.high")])) ≠ [] ∧
    is_kept (check_dependencies
      (Contract.init "contract" ["app"] [Layer.mk "low", Layer.mk "high"] [] false)
      (ConcreteGraph.toGraph
        (ConcreteGraph.mk ["app.low", "app.high"] [("app.low", "app.high")]))) =
      .ok false := by
  have hwalk : IsWalk
      (allowedEdges (ConcreteGraph.mk ["app.low", "app.high"] [("app.low", "app.high")])
        (Contract.init "contract" ["app"] [Layer.mk "low", Layer.mk "high"] []
          false).whitelisted_paths)
      ["app.low", "app.high"]
      ("app" ++ "." ++
        (((Contract.init "contract" ["app"] [Layer.mk "low", Layer.mk "high"] []
          false).layers).get ⟨0, by decide⟩).name)
      "app.high" := by
    refine ⟨by decide, by decide, ?_⟩
    rw [List.chain'_cons]
    exact ⟨by decide, List.chain'_singleton _⟩
  have h := claim_C1_amended
    (Contract.init "contract" ["app"] [Layer.mk "low", Layer.mk "high"] [] false)
    (ConcreteGraph.mk ["app.low", "app.high"] [("app.low", "app.high")])
    "app" 0 1 (by decide) (by decide) (by decide) (by decide) (by decide)
    "app.high" ["app.low", "app.high"] (by decide) hwalk
  exact ⟨hwalk, h.1, h.2.1⟩

end LayerLinter
